import Mathlib

/-!
Verification of the tbv8 market-data core against its specification.

Shallow embedding conventions:
* Timestamps and timeframe periods are modelled as `Nat` milliseconds
  (epoch milliseconds; all stored timestamps are non-negative, and Python's
  `//` and `%` agree with `Nat` division on non-negative operands).
* Python `float` prices and volumes are modelled as `ℚ`: the operations the
  aggregator performs (`max`, `min`, `+`) are modelled exactly.
* SQLite tables are modelled as lists of rows; `INSERT .. ON CONFLICT DO
  UPDATE` is replace-by-key, `INSERT OR IGNORE` keeps the existing row.
* The per-series scan `ORDER BY ts_ms` is modelled by passing the ordered
  list of rows and assuming sortedness in the theorems.
-/

/-- `packages/common/timeframes.py::floor_ts_to_tf`, with the timeframe
already converted to milliseconds (`timeframe_to_ms`). -/
def floor_ts_to_tf (ts_ms tf_ms : Nat) : Nat :=
  ts_ms / tf_ms * tf_ms

/-- `packages/common/timeframes.py::ceil_ts_to_tf`, with the timeframe
already converted to milliseconds. -/
def ceil_ts_to_tf (ts_ms tf_ms : Nat) : Nat :=
  if ts_ms % tf_ms = 0 then ts_ms else (ts_ms / tf_ms + 1) * tf_ms

/-- `packages/common/backfill/types.py::OHLCV` (frozen dataclass).
`open` is a Lean keyword, hence the field name `open_`. -/
structure OHLCV where
  ts_ms : Nat
  open_ : ℚ
  high : ℚ
  low : ℚ
  close : ℚ
  volume : ℚ
deriving Repr, DecidableEq

/-- Bucket of a base bar: `floor_to_tf(ts, target_tf)`
(`aggregate.py` line `buck = floor_ts_to_tf(b.ts_ms, timeframe)`). -/
def bucketOf (tf_ms : Nat) (b : OHLCV) : Nat :=
  floor_ts_to_tf b.ts_ms tf_ms

/-- `aggregate.py::aggregate_from_1m`: starting a new accumulator
(`_AggState(ts_ms=buck, open=b.open, ...)`). -/
def aggInit (buck : Nat) (b : OHLCV) : OHLCV :=
  { ts_ms := buck, open_ := b.open_, high := b.high, low := b.low,
    close := b.close, volume := b.volume }

/-- `aggregate.py::aggregate_from_1m`: merging a bar into the current
accumulator (`st.high = max(..)`, `st.low = min(..)`, `st.close = b.close`,
`st.volume += b.volume`). -/
def aggMerge (s b : OHLCV) : OHLCV :=
  { ts_ms := s.ts_ms, open_ := s.open_, high := max s.high b.high,
    low := min s.low b.low, close := b.close, volume := s.volume + b.volume }

/-- `aggregate.py::aggregate_from_1m`: the post-loop emission — the pending
bucket is emitted iff `st_bucket + tf_ms <= complete_end_ms`. -/
def aggFinal (tf_ms complete_end_ms : Nat) (st : Option OHLCV) : List OHLCV :=
  match st with
  | none => []
  | some s => if s.ts_ms + tf_ms ≤ complete_end_ms then [s] else []

/-- The `for b in bars` loop of `aggregate.py::aggregate_from_1m`.
The accumulator state is an `Option OHLCV` whose `ts_ms` is `st_bucket`.
A bar whose bucket is `≥ complete_end_ms` triggers `break`, after which
the post-loop emission runs on the pending state. -/
def aggLoop (tf_ms complete_end_ms : Nat) : List OHLCV → Option OHLCV → List OHLCV
  | [], st => aggFinal tf_ms complete_end_ms st
  | b :: rest, st =>
    let buck := bucketOf tf_ms b
    if complete_end_ms ≤ buck then aggFinal tf_ms complete_end_ms st
    else
      match st with
      | none => aggLoop tf_ms complete_end_ms rest (some (aggInit buck b))
      | some s =>
        if buck = s.ts_ms then aggLoop tf_ms complete_end_ms rest (some (aggMerge s b))
        else s :: aggLoop tf_ms complete_end_ms rest (some (aggInit buck b))

/-- `aggregate.py::aggregate_from_1m`. Returns `none` when
`_validate_target_tf` raises (`tf_ms ≤ 60_000`). -/
def aggregate_from_1m (bars : List OHLCV) (tf_ms complete_end_ms : Nat) :
    Option (List OHLCV) :=
  if tf_ms ≤ 60000 then none
  else some (aggLoop tf_ms complete_end_ms bars none)

/-- Reference form of the aggregation loop used to prove properties of
`aggLoop`: consume one maximal same-bucket group at a time. -/
def specAgg (tf_ms complete_end_ms : Nat) : List OHLCV → List OHLCV
  | [] => []
  | b :: rest =>
    let k := bucketOf tf_ms b
    let grp := rest.takeWhile (fun x => bucketOf tf_ms x == k)
    let rest2 := rest.dropWhile (fun x => bucketOf tf_ms x == k)
    if k + tf_ms ≤ complete_end_ms then
      (grp.foldl aggMerge (aggInit k b)) :: specAgg tf_ms complete_end_ms rest2
    else specAgg tf_ms complete_end_ms rest2
termination_by l => l.length
decreasing_by
  all_goals
    simp only [List.length_cons]
    exact Nat.lt_succ_of_le (List.dropWhile_sublist _).length_le

/-- Bars sorted ascending by timestamp (SQL `ORDER BY ts_ms ASC`). -/
def SortedBars (bars : List OHLCV) : Prop :=
  List.Pairwise (fun a b => a.ts_ms ≤ b.ts_ms) bars

theorem aggMerge_ts_ms (s b : OHLCV) : (aggMerge s b).ts_ms = s.ts_ms := rfl

theorem foldl_aggMerge_ts_ms (l : List OHLCV) :
    ∀ s : OHLCV, (l.foldl aggMerge s).ts_ms = s.ts_ms := by
  induction l with
  | nil => intro s; rfl
  | cons b l ih => intro s; simpa [List.foldl_cons, aggMerge_ts_ms] using ih (aggMerge s b)

theorem tf_dvd_floor (t tf_ms : Nat) : tf_ms ∣ floor_ts_to_tf t tf_ms :=
  Dvd.intro_left _ rfl

theorem floor_ts_to_tf_mono {a b : Nat} (tf_ms : Nat) (h : a ≤ b) :
    floor_ts_to_tf a tf_ms ≤ floor_ts_to_tf b tf_ms :=
  Nat.mul_le_mul_right _ (Nat.div_le_div_right h)

theorem floor_ts_to_tf_le (t tf_ms : Nat) : floor_ts_to_tf t tf_ms ≤ t :=
  Nat.div_mul_le_self t tf_ms

theorem floor_ts_to_tf_of_dvd {t tf_ms : Nat} (htf : 0 < tf_ms) (h : tf_ms ∣ t) :
    floor_ts_to_tf t tf_ms = t := by
  obtain ⟨x, rfl⟩ := h
  unfold floor_ts_to_tf
  rw [Nat.mul_div_cancel_left _ htf, Nat.mul_comm]

/-- Between two multiples of the timeframe period, `<` is a full step. -/
theorem add_tf_le_of_lt {a b tf_ms : Nat} (ha : tf_ms ∣ a) (hb : tf_ms ∣ b)
    (h : a < b) : a + tf_ms ≤ b := by
  obtain ⟨x, rfl⟩ := ha
  obtain ⟨y, rfl⟩ := hb
  have hxy : x < y := Nat.lt_of_mul_lt_mul_left h
  calc tf_ms * x + tf_ms = tf_ms * (x + 1) := by ring
    _ ≤ tf_ms * y := Nat.mul_le_mul_left _ hxy

theorem bucketOf_mono {a b : OHLCV} (tf_ms : Nat) (h : a.ts_ms ≤ b.ts_ms) :
    bucketOf tf_ms a ≤ bucketOf tf_ms b :=
  floor_ts_to_tf_mono tf_ms h

/-- If every remaining bar already belongs to a bucket at or past
`complete_end_ms`, the reference aggregation emits nothing. -/
theorem specAgg_eq_nil (tf_ms e : Nat) (htf : 0 < tf_ms) :
    ∀ n l, l.length ≤ n → (∀ x ∈ l, e ≤ bucketOf tf_ms x) →
      specAgg tf_ms e l = [] := by
  intro n
  induction n with
  | zero =>
    intro l hl _
    have : l = [] := List.length_eq_zero.mp (Nat.le_zero.mp hl)
    subst this
    simp [specAgg]
  | succ m ih =>
    intro l hl hall
    match l with
    | [] => simp [specAgg]
    | b :: rest =>
      rw [specAgg]
      have hk : e ≤ bucketOf tf_ms b := hall b (List.mem_cons_self _ _)
      have : ¬ (bucketOf tf_ms b + tf_ms ≤ e) := by omega
      simp only [this, if_false]
      apply ih
      · have h1 : (rest.dropWhile (fun x => bucketOf tf_ms x == bucketOf tf_ms b)).length
            ≤ rest.length := (List.dropWhile_sublist _).length_le
        have h2 : rest.length ≤ m := by
          simpa [Nat.succ_le_succ_iff] using hl
        omega
      · intro x hx
        exact hall x (List.mem_cons_of_mem _ ((List.dropWhile_sublist _).subset hx))

/-- Absorbing a maximal same-bucket group into the accumulator. -/
theorem aggLoop_append_group (tf_ms e : Nat) :
    ∀ (grp : List OHLCV) (rest : List OHLCV) (s : OHLCV),
      s.ts_ms < e → (∀ x ∈ grp, bucketOf tf_ms x = s.ts_ms) →
      aggLoop tf_ms e (grp ++ rest) (some s) =
        aggLoop tf_ms e rest (some (grp.foldl aggMerge s)) := by
  intro grp
  induction grp with
  | nil => intro rest s _ _; rfl
  | cons g grp ih =>
    intro rest s hse hall
    have hg : bucketOf tf_ms g = s.ts_ms := hall g (List.mem_cons_self _ _)
    have hnb : ¬ (e ≤ bucketOf tf_ms g) := by omega
    rw [List.cons_append, aggLoop]
    simp only [hg, hnb, if_false, if_pos rfl]
    have hns : ¬ (e ≤ s.ts_ms) := by omega
    rw [if_neg hns]
    exact ih rest (aggMerge s g) (by rwa [aggMerge_ts_ms]) (by
      intro x hx
      rw [aggMerge_ts_ms]
      exact hall x (List.mem_cons_of_mem _ hx))

/-- The imperative aggregation loop of `aggregate_from_1m` agrees with the
group-at-a-time reference form, for sorted input and a grid-aligned
`complete_end_ms` (as produced by `build_aggregates`:
`complete_end = floor_ts_to_tf(chunk_end, tf)`). -/
theorem aggLoop_eq_specAgg (tf_ms e : Nat) (htf : 0 < tf_ms) (he : tf_ms ∣ e) :
    ∀ n bars, bars.length ≤ n → SortedBars bars →
      aggLoop tf_ms e bars none = specAgg tf_ms e bars := by
  intro n
  induction n with
  | zero =>
    intro bars hl _
    have : bars = [] := List.length_eq_zero.mp (Nat.le_zero.mp hl)
    subst this
    simp [aggLoop, specAgg, aggFinal]
  | succ m ih =>
    intro bars hl hsort
    match bars, hl with
    | [], _ => simp [aggLoop, specAgg, aggFinal]
    | b :: rest, hl =>
      have hrlen : rest.length ≤ m := by simpa [Nat.succ_le_succ_iff] using hl
      have hrsort : SortedBars rest := hsort.of_cons
      have hble : ∀ x ∈ rest, b.ts_ms ≤ x.ts_ms := fun x hx =>
        (List.pairwise_cons.mp hsort).1 x hx
      set k := bucketOf tf_ms b with hkdef
      have hkd : tf_ms ∣ k := tf_dvd_floor _ _
      set grp := rest.takeWhile (fun x => bucketOf tf_ms x == k) with hgrpdef
      set rest2 := rest.dropWhile (fun x => bucketOf tf_ms x == k) with hrest2def
      have hsplit : grp ++ rest2 = rest := List.takeWhile_append_dropWhile ..
      have hgrp : ∀ x ∈ grp, bucketOf tf_ms x = k := by
        intro x hx
        have := List.mem_takeWhile_imp hx
        simpa using this
      have hrest2sub : List.Sublist rest2 rest := List.dropWhile_sublist _
      have hrest2sort : SortedBars rest2 := hsort.of_cons.sublist hrest2sub
      have hrest2len : rest2.length ≤ m := le_trans hrest2sub.length_le hrlen
      by_cases hke : k + tf_ms ≤ e
      · have hklt : k < e := by omega
        have hnb : ¬ (e ≤ k) := by omega
        rw [specAgg]
        simp only [← hgrpdef, ← hrest2def, if_pos hke]
        show aggLoop tf_ms e (b :: rest) none = _
        rw [aggLoop]
        simp only [← hkdef, if_neg hnb]
        rw [← hsplit, aggLoop_append_group tf_ms e grp rest2 (aggInit k b) hklt hgrp]
        set G := grp.foldl aggMerge (aggInit k b) with hGdef
        have hGts : G.ts_ms = k := foldl_aggMerge_ts_ms _ _
        match hr2 : rest2 with
        | [] =>
          rw [aggLoop, specAgg]
          simp [aggFinal, hGts, hke]
        | b2 :: rest3 =>
          set k2 := bucketOf tf_ms b2 with hk2def
          have hb2rest : b2 ∈ rest := hrest2sub.subset (List.mem_cons_self _ _)
          have hk2ne : k2 ≠ k := by
            have hhd := List.head?_dropWhile_not (fun x => bucketOf tf_ms x == k) rest
            rw [← hrest2def] at hhd
            simp only [List.head?_cons] at hhd
            intro hcon
            rw [← hk2def] at hhd
            simp [hcon] at hhd
          have hk2ge : k ≤ k2 := bucketOf_mono tf_ms (hble b2 hb2rest)
          have hk2gt : k < k2 := lt_of_le_of_ne hk2ge (Ne.symm hk2ne)
          by_cases hk2e : e ≤ k2
          · rw [aggLoop]
            simp only [← hk2def, if_pos hk2e, aggFinal, hGts, if_pos hke]
            have : specAgg tf_ms e (b2 :: rest3) = [] := by
              apply specAgg_eq_nil tf_ms e htf m _ hrest2len
              intro x hx
              rcases List.mem_cons.mp hx with hx | hx
              · subst hx; exact hk2e
              · have : b2.ts_ms ≤ x.ts_ms :=
                  (List.pairwise_cons.mp hrest2sort).1 x hx
                exact le_trans hk2e (bucketOf_mono tf_ms this)
            rw [this]
          · have hk2lt : k2 < e := by omega
            rw [aggLoop]
            simp only [← hk2def, if_neg hk2e, hGts]
            rw [if_neg (by omega : ¬ k2 = k)]
            have hrec : aggLoop tf_ms e (b2 :: rest3) none =
                aggLoop tf_ms e rest3 (some (aggInit k2 b2)) := by
              rw [aggLoop]
              simp [← hk2def, hk2e]
            rw [← hrec, ih (b2 :: rest3) hrest2len hrest2sort]
      · have hek : e ≤ k := by
          by_contra hcon
          exact hke (add_tf_le_of_lt hkd he (by omega))
        rw [specAgg]
        simp only [← hgrpdef, ← hrest2def, if_neg hke]
        show aggLoop tf_ms e (b :: rest) none = _
        rw [aggLoop]
        simp only [← hkdef, if_pos hek]
        have : specAgg tf_ms e rest2 = [] := by
          apply specAgg_eq_nil tf_ms e htf m _ hrest2len
          intro x hx
          have hxr : x ∈ rest := hrest2sub.subset hx
          exact le_trans hek (bucketOf_mono tf_ms (hble x hxr))
        rw [this]
        rfl

theorem foldl_aggMerge_open (l : List OHLCV) :
    ∀ s : OHLCV, (l.foldl aggMerge s).open_ = s.open_ := by
  induction l with
  | nil => intro s; rfl
  | cons b l ih => intro s; simpa [List.foldl_cons] using ih (aggMerge s b)

theorem foldl_aggMerge_close (l : List OHLCV) :
    ∀ s : OHLCV, (l.foldl aggMerge s).close =
      (match l.getLast? with
       | some x => x.close
       | none => s.close) := by
  induction l with
  | nil => intro s; rfl
  | cons b l ih =>
    intro s
    rw [List.foldl_cons, ih (aggMerge s b)]
    match l with
    | [] => rfl
    | c :: l2 =>
      cases hy : (c :: l2).getLast? with
      | none => simp at hy
      | some y => simp [hy]

theorem foldl_aggMerge_high (l : List OHLCV) :
    ∀ s : OHLCV, (l.foldl aggMerge s).high =
      (l.map OHLCV.high).foldl max s.high := by
  induction l with
  | nil => intro s; rfl
  | cons b l ih => intro s; simpa [List.foldl_cons] using ih (aggMerge s b)

theorem foldl_aggMerge_low (l : List OHLCV) :
    ∀ s : OHLCV, (l.foldl aggMerge s).low =
      (l.map OHLCV.low).foldl min s.low := by
  induction l with
  | nil => intro s; rfl
  | cons b l ih => intro s; simpa [List.foldl_cons] using ih (aggMerge s b)

theorem foldl_aggMerge_volume (l : List OHLCV) :
    ∀ s : OHLCV, (l.foldl aggMerge s).volume =
      s.volume + (l.map OHLCV.volume).sum := by
  induction l with
  | nil => intro s; simp
  | cons b l ih =>
    intro s
    rw [List.foldl_cons, ih (aggMerge s b)]
    show s.volume + b.volume + _ = _
    rw [List.map_cons, List.sum_cons]
    ring

theorem foldl_max_mem {α : Type} [LinearOrder α] (a : α) (l : List α) :
    l.foldl max a ∈ a :: l := by
  induction l generalizing a with
  | nil => simp
  | cons b l ih =>
    rw [List.foldl_cons]
    rcases List.mem_cons.mp (ih (max a b)) with h | h
    · rcases max_choice a b with hm | hm
      · exact List.mem_cons.mpr (Or.inl (by rw [h, hm]))
      · exact List.mem_cons.mpr (Or.inr (by rw [h, hm]; exact List.mem_cons_self _ _))
    · exact List.mem_cons.mpr (Or.inr (List.mem_cons_of_mem _ h))

theorem le_foldl_max {α : Type} [LinearOrder α] (a : α) (l : List α) :
    a ≤ l.foldl max a ∧ ∀ x ∈ l, x ≤ l.foldl max a := by
  induction l generalizing a with
  | nil => simp
  | cons b l ih =>
    rw [List.foldl_cons]
    obtain ⟨h1, h2⟩ := ih (max a b)
    refine ⟨le_trans (le_max_left _ _) h1, ?_⟩
    intro x hx
    rcases List.mem_cons.mp hx with hx | hx
    · subst hx; exact le_trans (le_max_right _ _) h1
    · exact h2 x hx

theorem foldl_min_mem {α : Type} [LinearOrder α] (a : α) (l : List α) :
    l.foldl min a ∈ a :: l := by
  induction l generalizing a with
  | nil => simp
  | cons b l ih =>
    rw [List.foldl_cons]
    rcases List.mem_cons.mp (ih (min a b)) with h | h
    · rcases min_choice a b with hm | hm
      · exact List.mem_cons.mpr (Or.inl (by rw [h, hm]))
      · exact List.mem_cons.mpr (Or.inr (by rw [h, hm]; exact List.mem_cons_self _ _))
    · exact List.mem_cons.mpr (Or.inr (List.mem_cons_of_mem _ h))

theorem foldl_min_le {α : Type} [LinearOrder α] (a : α) (l : List α) :
    l.foldl min a ≤ a ∧ ∀ x ∈ l, l.foldl min a ≤ x := by
  induction l generalizing a with
  | nil => simp
  | cons b l ih =>
    rw [List.foldl_cons]
    obtain ⟨h1, h2⟩ := ih (min a b)
    refine ⟨le_trans h1 (min_le_left _ _), ?_⟩
    intro x hx
    rcases List.mem_cons.mp hx with hx | hx
    · subst hx; exact le_trans h1 (min_le_right _ _)
    · exact h2 x hx

/-- In a sorted list, everything the `dropWhile` of the leading same-bucket
group leaves behind lives in a strictly later bucket. -/
theorem dropWhile_buckets_gt (tf_ms : Nat) (b : OHLCV) (rest : List OHLCV)
    (hsort : SortedBars (b :: rest)) :
    ∀ x ∈ rest.dropWhile (fun x => bucketOf tf_ms x == bucketOf tf_ms b),
      bucketOf tf_ms b < bucketOf tf_ms x := by
  intro x hx
  match hr2 : rest.dropWhile (fun x => bucketOf tf_ms x == bucketOf tf_ms b) with
  | [] => rw [hr2] at hx; exact absurd hx (List.not_mem_nil x)
  | b2 :: rest3 =>
    rw [hr2] at hx
    have hsub : List.Sublist (b2 :: rest3) rest := hr2 ▸ List.dropWhile_sublist _
    have hb2rest : b2 ∈ rest := hsub.subset (List.mem_cons_self _ _)
    have hk2ne : bucketOf tf_ms b2 ≠ bucketOf tf_ms b := by
      have hhd := List.head?_dropWhile_not
        (fun x => bucketOf tf_ms x == bucketOf tf_ms b) rest
      rw [hr2] at hhd
      simp only [List.head?_cons] at hhd
      intro hcon
      simp [hcon] at hhd
    have hk2ge : bucketOf tf_ms b ≤ bucketOf tf_ms b2 :=
      bucketOf_mono tf_ms ((List.pairwise_cons.mp hsort).1 b2 hb2rest)
    have hk2gt : bucketOf tf_ms b < bucketOf tf_ms b2 := lt_of_le_of_ne hk2ge (Ne.symm hk2ne)
    rcases List.mem_cons.mp hx with hx | hx
    · subst hx; exact hk2gt
    · have hsort2 : SortedBars (b2 :: rest3) := hsort.of_cons.sublist hsub
      have : b2.ts_ms ≤ x.ts_ms := (List.pairwise_cons.mp hsort2).1 x hx
      exact lt_of_lt_of_le hk2gt (bucketOf_mono tf_ms this)

/-- In a sorted list, the bars of the first bar's bucket are exactly the
leading same-bucket group. -/
theorem filter_head_bucket (tf_ms : Nat) (b : OHLCV) (rest : List OHLCV)
    (hsort : SortedBars (b :: rest)) :
    (b :: rest).filter (fun x => bucketOf tf_ms x == bucketOf tf_ms b) =
      b :: rest.takeWhile (fun x => bucketOf tf_ms x == bucketOf tf_ms b) := by
  rw [List.filter_cons_of_pos (by simp)]
  congr 1
  conv_lhs => rw [← List.takeWhile_append_dropWhile
    (p := fun x => bucketOf tf_ms x == bucketOf tf_ms b) (l := rest)]
  rw [List.filter_append]
  rw [List.filter_eq_self.mpr (by
    intro a ha
    have h2 := @List.mem_takeWhile_imp OHLCV
      (fun x => bucketOf tf_ms x == bucketOf tf_ms b) rest a ha
    simpa using h2)]
  rw [List.filter_eq_nil_iff.mpr, List.append_nil]
  intro a ha
  have := dropWhile_buckets_gt tf_ms b rest hsort a ha
  simp only [beq_iff_eq]
  omega

/-- In a sorted list, a bucket strictly later than the first bar's bucket
only collects bars from past the leading group. -/
theorem filter_later_bucket (tf_ms : Nat) (b : OHLCV) (rest : List OHLCV) (t : Nat)
    (ht : bucketOf tf_ms b < t) :
    (b :: rest).filter (fun x => bucketOf tf_ms x == t) =
      (rest.dropWhile (fun x => bucketOf tf_ms x == bucketOf tf_ms b)).filter
        (fun x => bucketOf tf_ms x == t) := by
  rw [List.filter_cons_of_neg (by simp; omega)]
  conv_lhs => rw [← List.takeWhile_append_dropWhile
    (p := fun x => bucketOf tf_ms x == bucketOf tf_ms b) (l := rest)]
  rw [List.filter_append]
  rw [List.filter_eq_nil_iff.mpr, List.nil_append]
  intro a ha
  have := List.mem_takeWhile_imp ha
  simp only [beq_iff_eq] at this ⊢
  omega

/-- Bars of `bars` belonging to bucket `t` (`floor_to_tf(ts, target_tf) = t`). -/
def bucketGroup (tf_ms : Nat) (bars : List OHLCV) (t : Nat) : List OHLCV :=
  bars.filter (fun x => bucketOf tf_ms x == t)

/-- Field-by-field content of one folded bucket accumulator. -/
theorem foldGroup_props (k : Nat) (b : OHLCV) (grp : List OHLCV) :
    (grp.foldl aggMerge (aggInit k b)).open_ = b.open_ ∧
    (∃ L, (b :: grp).getLast? = some L ∧
      (grp.foldl aggMerge (aggInit k b)).close = L.close) ∧
    (grp.foldl aggMerge (aggInit k b)).high ∈ (b :: grp).map OHLCV.high ∧
    (∀ x ∈ b :: grp, x.high ≤ (grp.foldl aggMerge (aggInit k b)).high) ∧
    (grp.foldl aggMerge (aggInit k b)).low ∈ (b :: grp).map OHLCV.low ∧
    (∀ x ∈ b :: grp, (grp.foldl aggMerge (aggInit k b)).low ≤ x.low) ∧
    (grp.foldl aggMerge (aggInit k b)).volume = ((b :: grp).map OHLCV.volume).sum := by
  refine ⟨foldl_aggMerge_open grp _, ?_, ?_, ?_, ?_, ?_, ?_⟩
  · rw [foldl_aggMerge_close]
    match grp with
    | [] => exact ⟨b, rfl, rfl⟩
    | c :: l2 =>
      cases hy : (c :: l2).getLast? with
      | none => simp at hy
      | some y =>
        refine ⟨y, ?_, by simp [hy]⟩
        rw [List.getLast?_cons_cons, hy]
  · rw [foldl_aggMerge_high]
    simpa using foldl_max_mem b.high (grp.map OHLCV.high)
  · intro x hx
    rw [foldl_aggMerge_high]
    obtain ⟨h1, h2⟩ := le_foldl_max b.high (grp.map OHLCV.high)
    rcases List.mem_cons.mp hx with hx | hx
    · subst hx; exact h1
    · exact h2 _ (List.mem_map_of_mem _ hx)
  · rw [foldl_aggMerge_low]
    simpa using foldl_min_mem b.low (grp.map OHLCV.low)
  · intro x hx
    rw [foldl_aggMerge_low]
    obtain ⟨h1, h2⟩ := foldl_min_le b.low (grp.map OHLCV.low)
    rcases List.mem_cons.mp hx with hx | hx
    · subst hx; exact h1
    · exact h2 _ (List.mem_map_of_mem _ hx)
  · rw [foldl_aggMerge_volume]
    simp [aggInit]


/-- Per-bucket semantics of the reference aggregation: every emitted bar is
the open/high/low/close/volume roll-up of exactly the input bars of its
bucket. -/
theorem specAgg_sound (tf_ms e : Nat) :
    ∀ n bars, bars.length ≤ n → SortedBars bars →
      ∀ o ∈ specAgg tf_ms e bars,
        (∃ f, (bucketGroup tf_ms bars o.ts_ms).head? = some f ∧
          o.open_ = f.open_ ∧ o.ts_ms = floor_ts_to_tf f.ts_ms tf_ms) ∧
        (∃ L, (bucketGroup tf_ms bars o.ts_ms).getLast? = some L ∧ o.close = L.close) ∧
        o.high ∈ (bucketGroup tf_ms bars o.ts_ms).map OHLCV.high ∧
        (∀ x ∈ bucketGroup tf_ms bars o.ts_ms, x.high ≤ o.high) ∧
        o.low ∈ (bucketGroup tf_ms bars o.ts_ms).map OHLCV.low ∧
        (∀ x ∈ bucketGroup tf_ms bars o.ts_ms, o.low ≤ x.low) ∧
        o.volume = ((bucketGroup tf_ms bars o.ts_ms).map OHLCV.volume).sum := by
  intro n
  induction n with
  | zero =>
    intro bars hl _ o ho
    have : bars = [] := List.length_eq_zero.mp (Nat.le_zero.mp hl)
    subst this
    simp [specAgg] at ho
  | succ m ih =>
    intro bars hl hsort o ho
    match bars, hl with
    | [], _ => simp [specAgg] at ho
    | b :: rest, hl =>
      have hrlen : rest.length ≤ m := by simpa [Nat.succ_le_succ_iff] using hl
      have hrest2sub : List.Sublist
          (rest.dropWhile (fun x => bucketOf tf_ms x == bucketOf tf_ms b)) rest :=
        List.dropWhile_sublist _
      have hrest2sort : SortedBars
          (rest.dropWhile (fun x => bucketOf tf_ms x == bucketOf tf_ms b)) :=
        hsort.of_cons.sublist hrest2sub
      have hrest2len :
          (rest.dropWhile (fun x => bucketOf tf_ms x == bucketOf tf_ms b)).length ≤ m :=
        le_trans hrest2sub.length_le hrlen
      have hbuckgt := dropWhile_buckets_gt tf_ms b rest hsort
      have htail :
          o ∈ specAgg tf_ms e (rest.dropWhile (fun x => bucketOf tf_ms x == bucketOf tf_ms b)) →
          (∃ f, (bucketGroup tf_ms (b :: rest) o.ts_ms).head? = some f ∧
            o.open_ = f.open_ ∧ o.ts_ms = floor_ts_to_tf f.ts_ms tf_ms) ∧
          (∃ L, (bucketGroup tf_ms (b :: rest) o.ts_ms).getLast? = some L ∧
            o.close = L.close) ∧
          o.high ∈ (bucketGroup tf_ms (b :: rest) o.ts_ms).map OHLCV.high ∧
          (∀ x ∈ bucketGroup tf_ms (b :: rest) o.ts_ms, x.high ≤ o.high) ∧
          o.low ∈ (bucketGroup tf_ms (b :: rest) o.ts_ms).map OHLCV.low ∧
          (∀ x ∈ bucketGroup tf_ms (b :: rest) o.ts_ms, o.low ≤ x.low) ∧
          o.volume = ((bucketGroup tf_ms (b :: rest) o.ts_ms).map OHLCV.volume).sum := by
        intro ho2
        have IH := ih _ hrest2len hrest2sort o ho2
        obtain ⟨f, hf, _, _⟩ := IH.1
        have hfmem : f ∈ bucketGroup tf_ms
            (rest.dropWhile (fun x => bucketOf tf_ms x == bucketOf tf_ms b)) o.ts_ms :=
          List.mem_of_mem_head? (by rw [hf]; rfl)
        have hfin : f ∈ rest.dropWhile (fun x => bucketOf tf_ms x == bucketOf tf_ms b) :=
          List.mem_of_mem_filter hfmem
        have hfbuck : bucketOf tf_ms f = o.ts_ms := by
          have := List.of_mem_filter hfmem
          simpa using this
        have hto : bucketOf tf_ms b < o.ts_ms := hfbuck ▸ hbuckgt f hfin
        have hgroup_eq : bucketGroup tf_ms (b :: rest) o.ts_ms = bucketGroup tf_ms
            (rest.dropWhile (fun x => bucketOf tf_ms x == bucketOf tf_ms b)) o.ts_ms :=
          filter_later_bucket tf_ms b rest o.ts_ms hto
        rw [hgroup_eq]
        exact IH
      rw [specAgg] at ho
      by_cases hke : bucketOf tf_ms b + tf_ms ≤ e
      · simp only [if_pos hke] at ho
        rcases List.mem_cons.mp ho with rfl | ho2
        · have hGts :
              ((rest.takeWhile (fun x => bucketOf tf_ms x == bucketOf tf_ms b)).foldl
                aggMerge (aggInit (bucketOf tf_ms b) b)).ts_ms = bucketOf tf_ms b :=
            foldl_aggMerge_ts_ms _ _
          have hgroup_eq : bucketGroup tf_ms (b :: rest)
              ((rest.takeWhile (fun x => bucketOf tf_ms x == bucketOf tf_ms b)).foldl
                aggMerge (aggInit (bucketOf tf_ms b) b)).ts_ms =
              b :: rest.takeWhile (fun x => bucketOf tf_ms x == bucketOf tf_ms b) := by
            rw [hGts]
            exact filter_head_bucket tf_ms b rest hsort
          rw [hgroup_eq]
          obtain ⟨h1, h2, h3, h4, h5, h6, h7⟩ :=
            foldGroup_props (bucketOf tf_ms b) b
              (rest.takeWhile (fun x => bucketOf tf_ms x == bucketOf tf_ms b))
          exact ⟨⟨b, rfl, h1, hGts⟩, h2, h3, h4, h5, h6, h7⟩
        · exact htail ho2
      · simp only [if_neg hke] at ho
        exact htail ho

/-- Bucket-start membership for the reference aggregation: a bucket start is
emitted iff some input bar floors to it and the bucket completes at or
before `complete_end_ms`. -/
theorem specAgg_ts_mem (tf_ms e : Nat) :
    ∀ n bars, bars.length ≤ n →
      ∀ t, (t ∈ (specAgg tf_ms e bars).map OHLCV.ts_ms ↔
        ((∃ x ∈ bars, bucketOf tf_ms x = t) ∧ t + tf_ms ≤ e)) := by
  intro n
  induction n with
  | zero =>
    intro bars hl t
    have : bars = [] := List.length_eq_zero.mp (Nat.le_zero.mp hl)
    subst this
    simp [specAgg]
  | succ m ih =>
    intro bars hl t
    match bars, hl with
    | [], _ => simp [specAgg]
    | b :: rest, hl =>
      have hrlen : rest.length ≤ m := by simpa [Nat.succ_le_succ_iff] using hl
      have hrest2sub : List.Sublist
          (rest.dropWhile (fun x => bucketOf tf_ms x == bucketOf tf_ms b)) rest :=
        List.dropWhile_sublist _
      have hrest2len :
          (rest.dropWhile (fun x => bucketOf tf_ms x == bucketOf tf_ms b)).length ≤ m :=
        le_trans hrest2sub.length_le hrlen
      have IH := ih _ hrest2len t
      have hsplitmem : ∀ x ∈ rest,
          x ∈ rest.takeWhile (fun x => bucketOf tf_ms x == bucketOf tf_ms b) ∨
          x ∈ rest.dropWhile (fun x => bucketOf tf_ms x == bucketOf tf_ms b) := by
        intro x hx
        rw [← List.takeWhile_append_dropWhile
          (p := fun x => bucketOf tf_ms x == bucketOf tf_ms b) (l := rest)] at hx
        exact List.mem_append.mp hx
      rw [specAgg]
      by_cases hke : bucketOf tf_ms b + tf_ms ≤ e
      · rw [if_pos hke]
        have hGts :
            ((rest.takeWhile (fun x => bucketOf tf_ms x == bucketOf tf_ms b)).foldl
              aggMerge (aggInit (bucketOf tf_ms b) b)).ts_ms = bucketOf tf_ms b :=
          foldl_aggMerge_ts_ms _ _
        rw [List.map_cons, hGts]
        constructor
        · intro hmem
          rcases List.mem_cons.mp hmem with rfl | hmem2
          · exact ⟨⟨b, List.mem_cons_self _ _, rfl⟩, hke⟩
          · obtain ⟨⟨x, hx, hbx⟩, hte⟩ := IH.mp hmem2
            exact ⟨⟨x, List.mem_cons_of_mem _ (hrest2sub.subset hx), hbx⟩, hte⟩
        · rintro ⟨⟨x, hx, hbx⟩, hte⟩
          rcases List.mem_cons.mp hx with rfl | hx2
          · rw [← hbx]
            exact List.mem_cons_self _ _
          · rcases hsplitmem x hx2 with htk | hdr
            · have : bucketOf tf_ms x = bucketOf tf_ms b := by
                have h2 := @List.mem_takeWhile_imp OHLCV
                  (fun x => bucketOf tf_ms x == bucketOf tf_ms b) rest x htk
                simpa using h2
              rw [← hbx, this]
              exact List.mem_cons_self _ _
            · exact List.mem_cons_of_mem _ (IH.mpr ⟨⟨x, hdr, hbx⟩, hte⟩)
      · rw [if_neg hke]
        constructor
        · intro hmem
          obtain ⟨⟨x, hx, hbx⟩, hte⟩ := IH.mp hmem
          exact ⟨⟨x, List.mem_cons_of_mem _ (hrest2sub.subset hx), hbx⟩, hte⟩
        · rintro ⟨⟨x, hx, hbx⟩, hte⟩
          rcases List.mem_cons.mp hx with rfl | hx2
          · exact absurd (hbx ▸ hte) hke
          · rcases hsplitmem x hx2 with htk | hdr
            · have heq : bucketOf tf_ms x = bucketOf tf_ms b := by
                have h2 := @List.mem_takeWhile_imp OHLCV
                  (fun x => bucketOf tf_ms x == bucketOf tf_ms b) rest x htk
                simpa using h2
              rw [← hbx, heq] at hte
              exact absurd hte hke
            · exact IH.mpr ⟨⟨x, hdr, hbx⟩, hte⟩

/-- C4: For every sorted sequence of base-timeframe bars, each output bucket
of `aggregate_from_1m` has `open` equal to the first input bar's open in the
bucket, `high` the maximum of the inputs' highs, `low` the minimum of the
inputs' lows, `close` the last input bar's close, `volume` the sum of the
inputs' volumes, and `ts_ms` the bucket start `floor_to_tf(input ts,
target_tf)`.  (`complete_end_ms` is grid-aligned at every call site:
`build_aggregates` passes `floor_ts_to_tf(chunk_end, tf)`.) -/
theorem aggregate_from_1m_bucket_ohlcv
    (bars : List OHLCV) (tf_ms complete_end_ms : Nat) (out : List OHLCV)
    (hagg : aggregate_from_1m bars tf_ms complete_end_ms = some out)
    (hsort : SortedBars bars) (halign : tf_ms ∣ complete_end_ms) :
    ∀ o ∈ out,
      (∃ f, (bucketGroup tf_ms bars o.ts_ms).head? = some f ∧
        o.open_ = f.open_ ∧ o.ts_ms = floor_ts_to_tf f.ts_ms tf_ms) ∧
      (∃ L, (bucketGroup tf_ms bars o.ts_ms).getLast? = some L ∧ o.close = L.close) ∧
      o.high ∈ (bucketGroup tf_ms bars o.ts_ms).map OHLCV.high ∧
      (∀ x ∈ bucketGroup tf_ms bars o.ts_ms, x.high ≤ o.high) ∧
      o.low ∈ (bucketGroup tf_ms bars o.ts_ms).map OHLCV.low ∧
      (∀ x ∈ bucketGroup tf_ms bars o.ts_ms, o.low ≤ x.low) ∧
      o.volume = ((bucketGroup tf_ms bars o.ts_ms).map OHLCV.volume).sum := by
  intro o ho
  unfold aggregate_from_1m at hagg
  by_cases htf : tf_ms ≤ 60000
  · rw [if_pos htf] at hagg
    exact absurd hagg (by simp)
  · rw [if_neg htf] at hagg
    have htf0 : 0 < tf_ms := by omega
    have hout : out = specAgg tf_ms complete_end_ms bars := by
      have := Option.some.inj hagg
      rw [← this, aggLoop_eq_specAgg tf_ms complete_end_ms htf0 halign
        bars.length bars le_rfl hsort]
    rw [hout] at ho
    exact specAgg_sound tf_ms complete_end_ms bars.length bars le_rfl hsort o ho

/-- C5: For every sorted input sequence and grid-aligned `complete_end_ms`,
`aggregate_from_1m` emits a bucket with start `b` iff some input bar belongs
to that bucket and `b + target_tf_ms ≤ complete_end_ms`; partial trailing
buckets are never emitted. -/
theorem aggregate_from_1m_completed_buckets
    (bars : List OHLCV) (tf_ms complete_end_ms : Nat) (out : List OHLCV)
    (hagg : aggregate_from_1m bars tf_ms complete_end_ms = some out)
    (hsort : SortedBars bars) (halign : tf_ms ∣ complete_end_ms) :
    ∀ t, (t ∈ out.map OHLCV.ts_ms ↔
      ((∃ x ∈ bars, floor_ts_to_tf x.ts_ms tf_ms = t) ∧
        t + tf_ms ≤ complete_end_ms)) := by
  intro t
  unfold aggregate_from_1m at hagg
  by_cases htf : tf_ms ≤ 60000
  · rw [if_pos htf] at hagg
    exact absurd hagg (by simp)
  · rw [if_neg htf] at hagg
    have htf0 : 0 < tf_ms := by omega
    have hout : out = specAgg tf_ms complete_end_ms bars := by
      have := Option.some.inj hagg
      rw [← this, aggLoop_eq_specAgg tf_ms complete_end_ms htf0 halign
        bars.length bars le_rfl hsort]
    rw [hout]
    exact specAgg_ts_mem tf_ms complete_end_ms bars.length bars le_rfl t

/-- Concrete three-bar 1m input used to exercise the aggregator theorems. -/
def aggExampleBars : List OHLCV :=
  [⟨0, 1, 5, 0, 2, 10⟩, ⟨60000, 2, 3, 1, 4, 20⟩, ⟨300000, 7, 9, 6, 8, 5⟩]

/-- 5m output of `aggExampleBars` over `complete_end_ms = 600000`. -/
def aggExampleOut : List OHLCV :=
  [⟨0, 1, 5, 0, 4, 30⟩, ⟨300000, 7, 9, 6, 8, 5⟩]

theorem aggregate_from_1m_bucket_ohlcv_witness :
    SortedBars aggExampleBars ∧
    aggregate_from_1m aggExampleBars 300000 600000 = some aggExampleOut ∧
    (OHLCV.mk 0 1 5 0 4 30).volume =
      ((bucketGroup 300000 aggExampleBars (OHLCV.mk 0 1 5 0 4 30).ts_ms).map
        OHLCV.volume).sum ∧
    (OHLCV.mk 0 1 5 0 4 30).high ∈
      (bucketGroup 300000 aggExampleBars (OHLCV.mk 0 1 5 0 4 30).ts_ms).map
        OHLCV.high := by
  have hs : SortedBars aggExampleBars := by
    unfold SortedBars aggExampleBars
    decide
  have hagg : aggregate_from_1m aggExampleBars 300000 600000 = some aggExampleOut := by
    norm_num [aggregate_from_1m, aggLoop, aggFinal, aggInit, aggMerge, bucketOf,
      floor_ts_to_tf, aggExampleBars, aggExampleOut]
  have h := aggregate_from_1m_bucket_ohlcv aggExampleBars 300000 600000
    aggExampleOut hagg hs ⟨2, by norm_num⟩
    (OHLCV.mk 0 1 5 0 4 30) (List.mem_cons_self _ _)
  exact ⟨hs, hagg, h.2.2.2.2.2.2, h.2.2.1⟩

theorem aggregate_from_1m_completed_buckets_witness :
    aggregate_from_1m aggExampleBars 300000 600000 = some aggExampleOut ∧
    300000 ∈ aggExampleOut.map OHLCV.ts_ms ∧
    ¬ (600000 ∈ aggExampleOut.map OHLCV.ts_ms) := by
  have hs : SortedBars aggExampleBars := by
    unfold SortedBars aggExampleBars
    decide
  have hagg : aggregate_from_1m aggExampleBars 300000 600000 = some aggExampleOut := by
    norm_num [aggregate_from_1m, aggLoop, aggFinal, aggInit, aggMerge, bucketOf,
      floor_ts_to_tf, aggExampleBars, aggExampleOut]
  have hiff := aggregate_from_1m_completed_buckets aggExampleBars 300000 600000
    aggExampleOut hagg hs ⟨2, by norm_num⟩
  refine ⟨hagg, (hiff 300000).mpr ?_, fun hc => absurd ((hiff 600000).mp hc).2 (by decide)⟩
  refine ⟨⟨⟨300000, 7, 9, 6, 8, 5⟩, ?_, by decide⟩, by decide⟩
  exact List.mem_cons_of_mem _ (List.mem_cons_of_mem _ (List.mem_cons_self _ _))

/-- `packages/market_data/synthetic_fill.py::RuntimeBar`. -/
structure RuntimeBar where
  bar : OHLCV
  synthetic : Bool
deriving Repr, DecidableEq

/-- `synthetic_fill.py::make_synthetic_bar`: volume 0, OHLC all equal to the
last close. -/
def make_synthetic_bar (ts_ms : Nat) (prev_close : ℚ) : OHLCV :=
  { ts_ms := ts_ms, open_ := prev_close, high := prev_close, low := prev_close,
    close := prev_close, volume := 0 }

/-- The `if have_anchor and last_close is not None: yield synthetic` step of
`fill_missing_bars` (the emission for one missing grid point). -/
def synthStep (have_anchor : Bool) (last_close : Option ℚ) (cursor : Nat) :
    List RuntimeBar :=
  if have_anchor then
    match last_close with
    | some lc => [⟨make_synthetic_bar cursor lc, true⟩]
    | none => []
  else []

/-- The cursor loop of `synthetic_fill.py::fill_missing_bars`.  The list is
the not-yet-consumed part of the iterator (head = `next_real`), `last_close`
and `have_anchor` mirror the Python locals.  A zero `tf_ms` is rejected up
front (the Python caller always passes `timeframe_to_ms(tf) > 0`). -/
def fillGo (end_ms_excl tf_ms : Nat) :
    List OHLCV → Option ℚ → Bool → Nat → List RuntimeBar
  | next_real :: it, last_close, have_anchor, cursor =>
    if _h : tf_ms = 0 then []
    else
      if _hc : cursor < end_ms_excl then
        if next_real.ts_ms < cursor then
          fillGo end_ms_excl tf_ms it (some next_real.close) true cursor
        else if next_real.ts_ms = cursor then
          ⟨next_real, false⟩ ::
            fillGo end_ms_excl tf_ms it (some next_real.close) true (cursor + tf_ms)
        else
          synthStep have_anchor last_close cursor ++
            fillGo end_ms_excl tf_ms (next_real :: it) last_close have_anchor (cursor + tf_ms)
      else []
  | [], last_close, have_anchor, cursor =>
    if _h : tf_ms = 0 then []
    else
      if _hc : cursor < end_ms_excl then
        synthStep have_anchor last_close cursor ++
          fillGo end_ms_excl tf_ms [] last_close have_anchor (cursor + tf_ms)
      else []
termination_by bars _ _ cursor => (end_ms_excl - cursor, bars.length)
decreasing_by
  · exact Prod.Lex.right _ (by simp)
  · exact Prod.Lex.left _ _ (by omega)
  · exact Prod.Lex.left _ _ (by omega)
  · exact Prod.Lex.left _ _ (by omega)

/-- `synthetic_fill.py::fill_missing_bars`. -/
def fill_missing_bars (bars : List OHLCV) (start_ms end_ms_excl tf_ms : Nat) :
    List RuntimeBar :=
  fillGo end_ms_excl tf_ms bars none false start_ms

theorem fillGo_roundtrip (end_ms_excl tf_ms : Nat) (htf : 0 < tf_ms) :
    ∀ n cursor (bars : List OHLCV) (last_close : Option ℚ) (anchor : Bool),
      end_ms_excl - cursor ≤ n →
      tf_ms ∣ cursor →
      (∀ b ∈ bars, tf_ms ∣ b.ts_ms ∧ cursor ≤ b.ts_ms ∧ b.ts_ms < end_ms_excl) →
      List.Pairwise (fun a b => a.ts_ms < b.ts_ms) bars →
      ((fillGo end_ms_excl tf_ms bars last_close anchor cursor).filter
        (fun r => !r.synthetic)).map RuntimeBar.bar = bars := by
  have htfne : ¬ tf_ms = 0 := by omega
  intro n
  induction n with
  | zero =>
    intro cursor bars last_close anchor hn _ hmem _
    have hcge : ¬ cursor < end_ms_excl := by omega
    have hbars : bars = [] := by
      match bars with
      | [] => rfl
      | b :: it =>
        obtain ⟨_, h1, h2⟩ := hmem b (List.mem_cons_self _ _)
        omega
    subst hbars
    rw [fillGo, dif_neg htfne, dif_neg hcge]
    rfl
  | succ m ih =>
    intro cursor bars last_close anchor hn hdvd hmem hsorted
    by_cases hc : cursor < end_ms_excl
    · have hskip : (synthStep anchor last_close cursor).filter
          (fun r => !r.synthetic) = [] := by
        cases anchor <;> cases last_close <;> simp [synthStep]
      match bars with
      | [] =>
        rw [fillGo, dif_neg htfne, dif_pos hc]
        rw [List.filter_append, hskip, List.nil_append]
        exact ih (cursor + tf_ms) [] last_close anchor (by omega)
          (Dvd.dvd.add hdvd dvd_rfl) (by simp) List.Pairwise.nil
      | b :: it =>
        obtain ⟨hbd, hbge, hblt⟩ := hmem b (List.mem_cons_self _ _)
        have hnotlt : ¬ b.ts_ms < cursor := by omega
        rw [fillGo, dif_neg htfne, dif_pos hc]
        by_cases heq : b.ts_ms = cursor
        · rw [if_neg hnotlt, if_pos heq]
          rw [List.filter_cons_of_pos (by simp), List.map_cons]
          congr 1
          apply ih (cursor + tf_ms) it (some b.close) true (by omega)
            (Dvd.dvd.add hdvd dvd_rfl)
          · intro x hx
            obtain ⟨hxd, _, hxlt⟩ := hmem x (List.mem_cons_of_mem _ hx)
            have hbx : b.ts_ms < x.ts_ms := (List.pairwise_cons.mp hsorted).1 x hx
            refine ⟨hxd, ?_, hxlt⟩
            have := add_tf_le_of_lt hbd hxd hbx
            omega
          · exact hsorted.of_cons
        · rw [if_neg hnotlt, if_neg heq]
          rw [List.filter_append, hskip, List.nil_append]
          apply ih (cursor + tf_ms) (b :: it) last_close anchor (by omega)
            (Dvd.dvd.add hdvd dvd_rfl)
          · intro x hx
            obtain ⟨hxd, hxge, hxlt⟩ := hmem x hx
            refine ⟨hxd, ?_, hxlt⟩
            rcases List.mem_cons.mp hx with rfl | hx2
            · have : cursor < x.ts_ms := by omega
              have := add_tf_le_of_lt hdvd hxd this
              omega
            · have hbx : b.ts_ms < x.ts_ms := (List.pairwise_cons.mp hsorted).1 x hx2
              have hcb : cursor < b.ts_ms := by omega
              have := add_tf_le_of_lt hdvd hbd hcb
              omega
          · exact hsorted
    · have hbars : bars = [] := by
        match bars with
        | [] => rfl
        | b :: it =>
          obtain ⟨_, h1, h2⟩ := hmem b (List.mem_cons_self _ _)
          omega
      subst hbars
      rw [fillGo, dif_neg htfne, dif_neg hc]
      rfl

/-- C8: For every strictly sorted sequence of real bars aligned to the tf
grid with timestamps inside `[start_ms, end_ms_excl)` (and grid-aligned
`start_ms`), filtering the output of `fill_missing_bars` to its
non-synthetic items yields exactly the input sparse bars, in order; every
real bar is emitted unchanged with `synthetic = false`. -/
theorem fill_missing_bars_roundtrip
    (bars : List OHLCV) (start_ms end_ms_excl tf_ms : Nat)
    (htf : 0 < tf_ms) (hstart : tf_ms ∣ start_ms)
    (hmem : ∀ b ∈ bars, tf_ms ∣ b.ts_ms ∧ start_ms ≤ b.ts_ms ∧ b.ts_ms < end_ms_excl)
    (hsorted : List.Pairwise (fun a b => a.ts_ms < b.ts_ms) bars) :
    ((fill_missing_bars bars start_ms end_ms_excl tf_ms).filter
      (fun r => !r.synthetic)).map RuntimeBar.bar = bars :=
  fillGo_roundtrip end_ms_excl tf_ms htf (end_ms_excl - start_ms) start_ms bars
    none false le_rfl hstart hmem hsorted

theorem fill_missing_bars_roundtrip_witness :
    ((fill_missing_bars [⟨60000, 10, 10, 10, 10, 1⟩, ⟨240000, 11, 11, 11, 11, 2⟩]
        60000 300000 60000).filter (fun r => !r.synthetic)).map RuntimeBar.bar =
      [⟨60000, 10, 10, 10, 10, 1⟩, ⟨240000, 11, 11, 11, 11, 2⟩] :=
  fill_missing_bars_roundtrip _ _ _ _ (by decide) (by decide) (by decide) (by decide)

/-- One row of `history_coverage` for a fixed `(venue, symbol, timeframe)`
(`sqlite_store.py::CoverageRow`; the three key columns are fixed by the
series under consideration and omitted). -/
structure CoverageRow where
  start_ms : Nat
  end_ms : Nat
  updated_at_ms : Nat
deriving Repr, DecidableEq

/-- `sqlite_store.py::upsert_tf` / `upsert_1m` applied to one row:
`INSERT .. ON CONFLICT(venue,symbol,ts_ms) DO UPDATE` — replace the row with
the same `ts_ms`, else append. -/
def upsertBar (bars : List OHLCV) (r : OHLCV) : List OHLCV :=
  if bars.any (fun x => x.ts_ms == r.ts_ms) then
    bars.map (fun x => if x.ts_ms == r.ts_ms then r else x)
  else bars ++ [r]

/-- A whole page of rows, in order (`executemany`). -/
def upsert_bars (bars rows : List OHLCV) : List OHLCV :=
  rows.foldl upsertBar bars

/-- `SELECT MAX(ts_ms) ...` over the modelled series
(`sqlite_store.py::get_max_ts_tf`). -/
def get_max_ts (bars : List OHLCV) : Option Nat :=
  bars.foldl (fun acc b =>
    match acc with
    | none => some b.ts_ms
    | some m => some (max m b.ts_ms)) none

/-- `SELECT MIN(ts_ms) ...` over the modelled series
(`sqlite_store.py::get_min_ts`). -/
def get_min_ts (bars : List OHLCV) : Option Nat :=
  bars.foldl (fun acc b =>
    match acc with
    | none => some b.ts_ms
    | some m => some (min m b.ts_ms)) none

/-- The paged loop of `service.py::BackfillService._backfill_1m` for one
`(venue, symbol)` series.  The adapter is a function
`fetch start_ms end_ms limit ↦ page`; `fuel` bounds the number of
iterations and `none` means the bound was hit (proved unreachable for
`fuel > end_ms - cursor` in `backfill_1m_loop_terminates`). -/
def backfill_1m_loop (fuel : Nat) (fetch : Nat → Nat → Nat → List OHLCV)
    (bars : List OHLCV) (cursor end_ms : Nat) : Option (List OHLCV) :=
  match fuel with
  | 0 => none
  | fuel + 1 =>
    if cursor < end_ms then
      match hr : fetch cursor end_ms 1000 with
      | [] => some bars
      | r :: rest =>
        let bars2 := upsert_bars bars (r :: rest)
        let last_ts := floor_ts_to_tf ((r :: rest).getLast (by simp)).ts_ms 60000
        let next_cursor := last_ts + 60000
        if next_cursor ≤ cursor then some bars2
        else backfill_1m_loop fuel fetch bars2 next_cursor end_ms
    else some bars

/-- C9 helper: any fuel above `end_ms - cursor` suffices for the paged loop
to halt: each iteration stops on an empty page, stops on the non-progress
guard `next ≤ cursor`, or strictly advances the cursor toward `end_ms`. -/
theorem backfill_1m_loop_some (fetch : Nat → Nat → Nat → List OHLCV) :
    ∀ fuel cursor bars end_ms, end_ms - cursor < fuel →
      (backfill_1m_loop fuel fetch bars cursor end_ms).isSome = true := by
  intro fuel
  induction fuel with
  | zero => intro cursor bars end_ms h; omega
  | succ m ih =>
    intro cursor bars end_ms h
    rw [backfill_1m_loop]
    by_cases hc : cursor < end_ms
    · rw [if_pos hc]
      match hr : fetch cursor end_ms 1000 with
      | [] => rfl
      | r :: rest =>
        simp only []
        by_cases hnp : floor_ts_to_tf ((r :: rest).getLast (by simp)).ts_ms 60000 + 60000
            ≤ cursor
        · rw [if_pos hnp]; rfl
        · rw [if_neg hnp]
          apply ih
          omega
    · rw [if_neg hc]; rfl

/-- C9: the backfill paged loop terminates for every adapter and every
cursor/window: with fuel `end_ms - cursor + 1` the loop always reaches one
of its stopping conditions (it never returns `none`). -/
theorem backfill_1m_loop_terminates (fetch : Nat → Nat → Nat → List OHLCV)
    (bars : List OHLCV) (cursor end_ms : Nat) :
    (backfill_1m_loop (end_ms - cursor + 1) fetch bars cursor end_ms).isSome = true :=
  backfill_1m_loop_some fetch (end_ms - cursor + 1) cursor bars end_ms (by omega)

/-- `service.py::BackfillService.ensure_history` restricted to the base `1m`
series of one `(venue, symbol)`: the state is the stored `1m` bars and the
`1m` coverage row.  `start_parsed`/`end_parsed` are the already-parsed epoch
milliseconds of `start_date` / `end_date or now`.  `_aggregate_all` is
omitted: it writes only `bars_{tf≠1m}` rows and never touches the bars or
coverage modelled here. -/
def ensure_history_1m (fetch : Nat → Nat → Nat → List OHLCV)
    (bars : List OHLCV) (coverage : Option CoverageRow)
    (start_parsed end_parsed now : Nat) :
    Except String (List OHLCV × Option CoverageRow) :=
  let start_ms := floor_ts_to_tf start_parsed 60000
  let end_ms := floor_ts_to_tf end_parsed 60000
  if end_ms ≤ start_ms then Except.error "end_ms <= start_ms"
  else
    match get_max_ts bars with
    | none =>
      match backfill_1m_loop (end_ms - start_ms + 1) fetch bars start_ms end_ms with
      | none => Except.error "paged loop fuel exhausted (unreachable)"
      | some bars2 =>
        Except.ok (bars2, some ⟨start_ms, end_ms, now⟩)
    | some m =>
      let fetch_start := max (m + 60000) start_ms
      if end_ms ≤ fetch_start then
        -- "History already up-to-date": only aggregation runs; no coverage write.
        Except.ok (bars, coverage)
      else
        match backfill_1m_loop (end_ms - fetch_start + 1) fetch bars fetch_start end_ms with
        | none => Except.error "paged loop fuel exhausted (unreachable)"
        | some bars2 =>
          Except.ok (bars2, some ⟨start_ms, end_ms, now⟩)

/-- Adapter for the C1 counterexample: one bar at `ts = 0`, nothing after. -/
def c1_fetch : Nat → Nat → Nat → List OHLCV := fun s _ _ =>
  if s = 0 then [⟨0, 1, 1, 1, 1, 1⟩] else []

/-- C1 counterexample: a successful backfill run over `[0, 180000)` whose
adapter only has the single bar at `ts = 0` stores coverage
`(0, 180000)` — the requested window — although
`max_ts = 0` and `max_ts + tf_ms = 60000 ≠ 180000`.  Coverage is *not*
recomputed from the stored bars. -/
theorem ensure_history_1m_coverage_counterexample :
    ensure_history_1m c1_fetch [] none 0 180000 999 =
      Except.ok ([⟨0, 1, 1, 1, 1, 1⟩], some ⟨0, 180000, 999⟩) ∧
    get_max_ts [(⟨0, 1, 1, 1, 1, 1⟩ : OHLCV)] = some 0 ∧
    (180000 : Nat) ≠ 0 + 60000 := by
  refine ⟨?_, rfl, by decide⟩
  rfl

/-- C1 amended: whenever `BackfillService.ensure_history` takes the paged
path (bootstrap, or tail-update with `fetch_start < end_ms`), the `1m`
coverage it upserts is exactly the requested floored window
`(floor(start), floor(end))` — computed from the request, not from the
stored bars' `min_ts`/`max_ts`. -/
theorem ensure_history_1m_coverage_requested
    (fetch : Nat → Nat → Nat → List OHLCV) (bars : List OHLCV)
    (coverage : Option CoverageRow) (sp ep now : Nat)
    (hrange : floor_ts_to_tf sp 60000 < floor_ts_to_tf ep 60000)
    (hfetch : ∀ m, get_max_ts bars = some m →
      max (m + 60000) (floor_ts_to_tf sp 60000) < floor_ts_to_tf ep 60000) :
    (ensure_history_1m fetch bars coverage sp ep now).toOption.map Prod.snd =
      some (some ⟨floor_ts_to_tf sp 60000, floor_ts_to_tf ep 60000, now⟩) := by
  unfold ensure_history_1m
  rw [if_neg (by omega)]
  match hmx : get_max_ts bars with
  | none =>
    have hs := backfill_1m_loop_some fetch
      (floor_ts_to_tf ep 60000 - floor_ts_to_tf sp 60000 + 1)
      (floor_ts_to_tf sp 60000) bars (floor_ts_to_tf ep 60000) (by omega)
    match hb : backfill_1m_loop (floor_ts_to_tf ep 60000 - floor_ts_to_tf sp 60000 + 1)
        fetch bars (floor_ts_to_tf sp 60000) (floor_ts_to_tf ep 60000) with
    | none => rw [hb] at hs; simp at hs
    | some bars2 => rfl
  | some m =>
    have hlt := hfetch m hmx
    dsimp only
    rw [if_neg (by omega : ¬ floor_ts_to_tf ep 60000 ≤ max (m + 60000) (floor_ts_to_tf sp 60000))]
    have hs := backfill_1m_loop_some fetch
      (floor_ts_to_tf ep 60000 - max (m + 60000) (floor_ts_to_tf sp 60000) + 1)
      (max (m + 60000) (floor_ts_to_tf sp 60000)) bars (floor_ts_to_tf ep 60000) (by omega)
    match hb : backfill_1m_loop
        (floor_ts_to_tf ep 60000 - max (m + 60000) (floor_ts_to_tf sp 60000) + 1)
        fetch bars (max (m + 60000) (floor_ts_to_tf sp 60000)) (floor_ts_to_tf ep 60000) with
    | none => rw [hb] at hs; simp at hs
    | some bars2 => rfl

theorem ensure_history_1m_coverage_requested_witness :
    (ensure_history_1m c1_fetch [] none 0 180000 999).toOption.map Prod.snd =
      some (some ⟨0, 180000, 999⟩) := by
  have h := ensure_history_1m_coverage_requested c1_fetch [] none 0 180000 999
    (by decide) (by intro m hm; simp [get_max_ts] at hm)
  simpa [floor_ts_to_tf] using h

/-- Adapter for the C2 counterexample: a full grid of 1m bars for any
requested window (up to `limit` rows). -/
def c2_fetch : Nat → Nat → Nat → List OHLCV := fun s e limit =>
  (List.range (min limit ((e - s) / 60000))).map
    (fun i => ⟨s + i * 60000, 1, 1, 1, 1, 1⟩)

/-- C2 counterexample: two successive successful backfill runs, the second
with a later `start_date` — the stored `1m` coverage `start_ms` jumps from
`0` to `60000` (and its `end_ms` is simply overwritten), so coverage is not
monotonic for the base-1m path of `BackfillService.ensure_history`. -/
theorem coverage_monotonicity_counterexample :
    ensure_history_1m c2_fetch [] none 0 120000 7 =
      Except.ok ([⟨0, 1, 1, 1, 1, 1⟩, ⟨60000, 1, 1, 1, 1, 1⟩], some ⟨0, 120000, 7⟩) ∧
    ensure_history_1m c2_fetch [⟨0, 1, 1, 1, 1, 1⟩, ⟨60000, 1, 1, 1, 1, 1⟩]
        (some ⟨0, 120000, 7⟩) 60000 240000 8 =
      Except.ok ([⟨0, 1, 1, 1, 1, 1⟩, ⟨60000, 1, 1, 1, 1, 1⟩,
        ⟨120000, 1, 1, 1, 1, 1⟩, ⟨180000, 1, 1, 1, 1, 1⟩], some ⟨60000, 240000, 8⟩) ∧
    (0 : Nat) < 60000 := by
  exact ⟨rfl, rfl, by decide⟩

/-- The derived-coverage update step of
`plant.py::MarketDataPlant.ensure_history` (lines 135-226) for one target
timeframe: skip when no new completed bucket or when the derived window is
empty; on first creation start coverage at the stored `min_ts`; otherwise
keep the established `start_ms` and never shrink `end_ms`
(`cov_end_excl = max(prev.end_ms, real_end_excl)`).  The store reads after
`build_aggregates` (`get_min_ts`, `get_max_agg_open_ms`) are passed in as
`derived_min_ts` / `derived_max_open`. -/
def derived_coverage_update (prev : Option CoverageRow) (tf_ms : Nat)
    (req_start_tf base_max_ts : Nat)
    (derived_min_ts derived_max_open : Option Nat) (now : Nat) :
    Option CoverageRow :=
  let derived_end_excl := floor_ts_to_tf (base_max_ts + 60000) tf_ms
  match prev with
  | some p =>
    if derived_end_excl ≤ p.end_ms then none
    else
      let derived_start := floor_ts_to_tf (max req_start_tf (p.end_ms - 2 * tf_ms)) tf_ms
      if derived_end_excl ≤ derived_start then none
      else
        match derived_max_open with
        | none => none
        | some dmax => some ⟨p.start_ms, max p.end_ms (dmax + tf_ms), now⟩
  | none =>
    if derived_end_excl ≤ req_start_tf then none
    else
      match derived_min_ts with
      | none => none
      | some dmin =>
        match derived_max_open with
        | none => none
        | some dmax => some ⟨dmin, dmax + tf_ms, now⟩

/-- C2 amended: the derived-timeframe coverage update of the plant is
monotonic — when a previous row exists and an update is written, `start_ms`
is kept and `end_ms` never decreases.  (The base-1m coverage written by
`BackfillService.ensure_history` is *not* monotonic: see the
counterexample.) -/
theorem derived_coverage_update_monotone (p : CoverageRow)
    (tf_ms req_start_tf base_max_ts : Nat)
    (derived_min_ts derived_max_open : Option Nat) (now : Nat) (c : CoverageRow)
    (h : derived_coverage_update (some p) tf_ms req_start_tf base_max_ts
      derived_min_ts derived_max_open now = some c) :
    c.start_ms = p.start_ms ∧ p.end_ms ≤ c.end_ms := by
  unfold derived_coverage_update at h
  dsimp only at h
  by_cases h1 : floor_ts_to_tf (base_max_ts + 60000) tf_ms ≤ p.end_ms
  · rw [if_pos h1] at h; exact absurd h (by simp)
  · rw [if_neg h1] at h
    by_cases h2 : floor_ts_to_tf (base_max_ts + 60000) tf_ms ≤
        floor_ts_to_tf (max req_start_tf (p.end_ms - 2 * tf_ms)) tf_ms
    · rw [if_pos h2] at h; exact absurd h (by simp)
    · rw [if_neg h2] at h
      match derived_max_open with
      | none => exact absurd h (by simp)
      | some dmax =>
        have := Option.some.inj h
        subst this
        exact ⟨rfl, le_max_left _ _⟩

theorem derived_coverage_update_monotone_witness :
    derived_coverage_update (some ⟨0, 600000, 1⟩) 300000 0 840000 none
        (some 600000) 9 = some ⟨0, 900000, 9⟩ ∧
    (0 : Nat) = 0 ∧ (600000 : Nat) ≤ 900000 := by
  have h : derived_coverage_update (some ⟨0, 600000, 1⟩) 300000 0 840000 none
      (some 600000) 9 = some ⟨0, 900000, 9⟩ := by decide
  have hm := derived_coverage_update_monotone ⟨0, 600000, 1⟩ 300000 0 840000
    none (some 600000) 9 ⟨0, 900000, 9⟩ h
  exact ⟨h, hm.1, hm.2⟩

theorem ceil_ts_to_tf_ge {t tf_ms : Nat} (htf : 0 < tf_ms) :
    t ≤ ceil_ts_to_tf t tf_ms := by
  unfold ceil_ts_to_tf
  by_cases h : t % tf_ms = 0
  · rw [if_pos h]
  · rw [if_neg h]
    have h1 : tf_ms * (t / tf_ms) + t % tf_ms = t := Nat.div_add_mod t tf_ms
    have h2 : t % tf_ms < tf_ms := Nat.mod_lt _ htf
    have h3 : (t / tf_ms + 1) * tf_ms = tf_ms * (t / tf_ms) + tf_ms := by ring
    omega

/-- `sqlite_store.py::resolve_bar_window_from_coverage` for one series: the
coverage row is passed directly (the SQL lookup and the no-coverage error
are outside the window arithmetic being verified), and the timeframe is
given in milliseconds. -/
def resolve_bar_window_from_coverage (cov : CoverageRow)
    (requested_start_ms requested_end_ms : Option Nat) (tf_ms : Nat) :
    Except String (Nat × Nat) :=
  let cov_start := cov.start_ms
  let cov_end_excl := cov.end_ms
  let start_raw := match requested_start_ms with
    | some r => max cov_start r
    | none => cov_start
  let end_raw_excl := match requested_end_ms with
    | some r => min cov_end_excl r
    | none => cov_end_excl
  if end_raw_excl ≤ start_raw then
    Except.error "Resolved empty bar window"
  else
    let start_ms := ceil_ts_to_tf start_raw tf_ms
    let end_ms_excl := floor_ts_to_tf end_raw_excl tf_ms
    if end_ms_excl ≤ start_ms then
      Except.error "Resolved empty aligned bar window"
    else Except.ok (start_ms, end_ms_excl)

/-- C6 counterexample: with coverage `[100000, 900000)`, request
`[120000, 1000000]` and `5m = 300000 ms`, the resolver returns
`(300000, 900000)` — `ceil(120000, 300000) = 300000` — not the
`(120000, 900000)` the claim's example states. -/
theorem resolve_bar_window_example_counterexample :
    resolve_bar_window_from_coverage ⟨100000, 900000, 0⟩ (some 120000)
        (some 1000000) 300000 = Except.ok (300000, 900000) ∧
    ((300000, 900000) : Nat × Nat) ≠ (120000, 900000) := by
  exact ⟨rfl, by decide⟩

/-- C6 amended: the resolver returns
`(ceil(max(cov.start, req_start ?? cov.start), tf),
  floor(min(cov.end, req_end ?? cov.end), tf))`
exactly when that aligned window is non-empty, and fails otherwise (a
raw-empty window always yields an empty aligned window, so the two error
sites together fail exactly on `end_excl ≤ start`).  The concrete example
resolves to `[300000, 900000)`, not `[120000, 900000)`. -/
theorem resolve_bar_window_from_coverage_spec (cov : CoverageRow)
    (rs re : Option Nat) (tf_ms : Nat) (htf : 0 < tf_ms) (p : Nat × Nat) :
    resolve_bar_window_from_coverage cov rs re tf_ms = Except.ok p ↔
      (p.1 = ceil_ts_to_tf (max cov.start_ms (rs.getD cov.start_ms)) tf_ms ∧
       p.2 = floor_ts_to_tf (min cov.end_ms (re.getD cov.end_ms)) tf_ms ∧
       p.1 < p.2) := by
  unfold resolve_bar_window_from_coverage
  have hs : (match rs with
      | some r => max cov.start_ms r
      | none => cov.start_ms) = max cov.start_ms (rs.getD cov.start_ms) := by
    cases rs <;> simp
  have he : (match re with
      | some r => min cov.end_ms r
      | none => cov.end_ms) = min cov.end_ms (re.getD cov.end_ms) := by
    cases re <;> simp
  dsimp only
  rw [hs, he]
  by_cases h1 : min cov.end_ms (re.getD cov.end_ms) ≤ max cov.start_ms (rs.getD cov.start_ms)
  · rw [if_pos h1]
    constructor
    · intro hcon; exact absurd hcon (by simp)
    · rintro ⟨hp1, hp2, hlt⟩
      exfalso
      have hca := ceil_ts_to_tf_ge (t := max cov.start_ms (rs.getD cov.start_ms)) htf
      have hfb := floor_ts_to_tf_le (min cov.end_ms (re.getD cov.end_ms)) tf_ms
      rw [hp1, hp2] at hlt
      omega
  · rw [if_neg h1]
    by_cases h2 : floor_ts_to_tf (min cov.end_ms (re.getD cov.end_ms)) tf_ms ≤
        ceil_ts_to_tf (max cov.start_ms (rs.getD cov.start_ms)) tf_ms
    · rw [if_pos h2]
      constructor
      · intro hcon; exact absurd hcon (by simp)
      · rintro ⟨hp1, hp2, hlt⟩
        rw [hp1, hp2] at hlt
        omega
    · rw [if_neg h2]
      constructor
      · intro hok
        have := Except.ok.inj hok
        subst this
        exact ⟨rfl, rfl, by omega⟩
      · rintro ⟨hp1, hp2, _⟩
        match p with
        | (a, b) =>
          simp only at hp1 hp2
          rw [hp1, hp2]

theorem resolve_bar_window_from_coverage_spec_witness :
    resolve_bar_window_from_coverage ⟨100000, 900000, 0⟩ (some 120000)
        (some 1000000) 300000 = Except.ok (300000, 900000) :=
  (resolve_bar_window_from_coverage_spec ⟨100000, 900000, 0⟩ (some 120000)
    (some 1000000) 300000 (by decide) (300000, 900000)).mpr (by decide)

/-- One row of `known_missing_ranges` for a fixed `(venue, symbol,
timeframe)` (`sqlite_store.py`): `[start_ms, end_ms_excl)` plus the reason
tag.  `updated_at_ms` is irrelevant to the lookup and omitted. -/
structure KMRow where
  start_ms : Nat
  end_ms_excl : Nat
  reason : String
deriving Repr, DecidableEq

/-- `sqlite_store.py::record_known_missing_range`: `INSERT OR IGNORE` with
primary key `(venue, symbol, timeframe, start_ms, end_ms_excl)` — keep the
existing row when the key is already present, else append. -/
def record_known_missing_range (km : List KMRow) (start_ms end_ms_excl : Nat)
    (reason : String) : List KMRow :=
  if km.any (fun r => r.start_ms == start_ms && r.end_ms_excl == end_ms_excl) then km
  else km ++ [⟨start_ms, end_ms_excl, reason⟩]

/-- `sqlite_store.py::is_known_missing_range`:
`SELECT 1 ... WHERE start_ms <= q_start AND end_ms_excl >= q_end LIMIT 1`
then `fetchone() is not None` — true iff a single stored range fully covers
the queried interval. -/
def is_known_missing_range (km : List KMRow) (start_ms end_ms_excl : Nat) : Bool :=
  ((km.filter (fun r =>
    decide (r.start_ms ≤ start_ms) && decide (end_ms_excl ≤ r.end_ms_excl))).head?).isSome

/-- C10: after `record_known_missing_range(S, E)`, every query interval
contained in `[S, E)` answers true; and a query interval not fully
contained in any *single* recorded range answers false, even when a union
of recorded ranges covers it. -/
theorem known_missing_record_query_roundtrip :
    (∀ (km : List KMRow) (S E : Nat) (reason : String) (qs qe : Nat),
      S ≤ qs → qe ≤ E →
      is_known_missing_range (record_known_missing_range km S E reason) qs qe = true) ∧
    (∀ (km : List KMRow) (qs qe : Nat),
      (∀ r ∈ km, ¬ (r.start_ms ≤ qs ∧ qe ≤ r.end_ms_excl)) →
      is_known_missing_range km qs qe = false) := by
  constructor
  · intro km S E reason qs qe hqs hqe
    have hrow : ∃ r ∈ record_known_missing_range km S E reason,
        r.start_ms = S ∧ r.end_ms_excl = E := by
      unfold record_known_missing_range
      by_cases hany : km.any (fun r => r.start_ms == S && r.end_ms_excl == E)
      · rw [if_pos hany]
        obtain ⟨r, hr, hp⟩ := List.any_eq_true.mp hany
        refine ⟨r, hr, ?_, ?_⟩
        · have := (Bool.and_eq_true _ _).mp hp
          simpa using this.1
        · have := (Bool.and_eq_true _ _).mp hp
          simpa using this.2
      · rw [if_neg hany]
        exact ⟨⟨S, E, reason⟩, List.mem_append_right _ (List.mem_cons_self _ _), rfl, rfl⟩
    obtain ⟨r, hr, hs, he⟩ := hrow
    have hmem : r ∈ (record_known_missing_range km S E reason).filter (fun r =>
        decide (r.start_ms ≤ qs) && decide (qe ≤ r.end_ms_excl)) := by
      rw [List.mem_filter]
      refine ⟨hr, ?_⟩
      rw [Bool.and_eq_true, decide_eq_true_iff, decide_eq_true_iff]
      omega
    unfold is_known_missing_range
    match hf : (record_known_missing_range km S E reason).filter (fun r =>
        decide (r.start_ms ≤ qs) && decide (qe ≤ r.end_ms_excl)) with
    | [] => rw [hf] at hmem; exact absurd hmem (List.not_mem_nil r)
    | a :: t => rw [hf]; rfl
  · intro km qs qe hnone
    unfold is_known_missing_range
    have hf : km.filter (fun r =>
        decide (r.start_ms ≤ qs) && decide (qe ≤ r.end_ms_excl)) = [] := by
      rw [List.filter_eq_nil_iff]
      intro r hr
      have := hnone r hr
      rw [Bool.and_eq_true, decide_eq_true_iff, decide_eq_true_iff]
      omega
    rw [hf]
    rfl

theorem known_missing_record_query_roundtrip_witness :
    is_known_missing_range
      (record_known_missing_range [⟨0, 100, "binance_no_data"⟩] 100 200
        "binance_no_data") 110 190 = true ∧
    is_known_missing_range [⟨0, 100, "binance_no_data"⟩, ⟨100, 200, "binance_no_data"⟩]
      0 200 = false := by
  constructor
  · exact known_missing_record_query_roundtrip.1 [⟨0, 100, "binance_no_data"⟩]
      100 200 "binance_no_data" 110 190 (by decide) (by decide)
  · exact known_missing_record_query_roundtrip.2 _ 0 200 (by decide)

/-- Store state touched by `repair.py::GapRepairService.repair_gaps`: the
`bars_{tf}` rows of the series and the known-missing catalog. -/
structure RepairStore where
  bars : List OHLCV
  km : List KMRow
deriving Repr, DecidableEq

/-- One iteration of the repair chunk loop
(`repair.py::GapRepairService.repair_gaps`, the `while cursor < end_excl`
body): skip known-missing windows, upsert a non-empty page, and on an empty
page probe from the same start with `limit=1` against the gap end
`end_excl`; the cursor always advances to `window_end_excl`. -/
def repair_chunk_step (fetch : Nat → Nat → Nat → List OHLCV)
    (store : RepairStore) (tf_ms chunk_limit cursor end_excl now : Nat) :
    RepairStore × Nat :=
  let window_end_excl := min (cursor + chunk_limit * tf_ms) end_excl
  if is_known_missing_range store.km cursor window_end_excl then
    (store, window_end_excl)
  else
    match fetch cursor window_end_excl chunk_limit with
    | r :: rest =>
      ({ store with bars := upsert_bars store.bars (r :: rest) }, window_end_excl)
    | [] =>
      match fetch cursor end_excl 1 with
      | p :: _ =>
        if window_end_excl ≤ p.ts_ms then
          ({ store with km := (record_known_missing_range store.km cursor
              window_end_excl "binance_no_data") }, window_end_excl)
        else (store, window_end_excl)
      | [] =>
        ({ store with km := (record_known_missing_range store.km cursor
            window_end_excl "binance_no_data_probe_empty") }, window_end_excl)

/-- C7: when the adapter returns an empty page for a window that is not
known-missing, the probe (same start, `limit=1`) decides the outcome: a
probe bar at or past `window_end_excl` — or no probe bar at all — records a
known-missing row exactly `[window_start, window_end_excl)`; a probe bar
strictly inside the window records nothing; the cursor advances to
`window_end_excl` in every case. -/
theorem repair_chunk_probe_semantics (fetch : Nat → Nat → Nat → List OHLCV)
    (store : RepairStore) (tf_ms chunk_limit cursor end_excl now : Nat)
    (hempty : fetch cursor (min (cursor + chunk_limit * tf_ms) end_excl) chunk_limit = [])
    (hnk : is_known_missing_range store.km cursor
      (min (cursor + chunk_limit * tf_ms) end_excl) = false) :
    (repair_chunk_step fetch store tf_ms chunk_limit cursor end_excl now).2 =
      min (cursor + chunk_limit * tf_ms) end_excl ∧
    (∀ p rest, fetch cursor end_excl 1 = p :: rest →
      min (cursor + chunk_limit * tf_ms) end_excl ≤ p.ts_ms →
      (repair_chunk_step fetch store tf_ms chunk_limit cursor end_excl now).1 =
        { store with km := (record_known_missing_range store.km cursor
            (min (cursor + chunk_limit * tf_ms) end_excl) "binance_no_data") }) ∧
    (fetch cursor end_excl 1 = [] →
      (repair_chunk_step fetch store tf_ms chunk_limit cursor end_excl now).1 =
        { store with km := (record_known_missing_range store.km cursor
            (min (cursor + chunk_limit * tf_ms) end_excl)
            "binance_no_data_probe_empty") }) ∧
    (∀ p rest, fetch cursor end_excl 1 = p :: rest →
      p.ts_ms < min (cursor + chunk_limit * tf_ms) end_excl →
      (repair_chunk_step fetch store tf_ms chunk_limit cursor end_excl now).1 =
        store) := by
  unfold repair_chunk_step
  dsimp only
  rw [hnk]
  simp only [Bool.false_eq_true, if_false, hempty]
  refine ⟨?_, ?_, ?_, ?_⟩
  · match hp : fetch cursor end_excl 1 with
    | [] => rfl
    | p :: rest =>
      dsimp only
      by_cases hb : min (cursor + chunk_limit * tf_ms) end_excl ≤ p.ts_ms
      · rw [if_pos hb]
      · rw [if_neg hb]
  · intro p rest hp hb
    rw [hp]
    dsimp only
    rw [if_pos hb]
  · intro hp
    rw [hp]
  · intro p rest hp hb
    rw [hp]
    dsimp only
    rw [if_neg (by omega)]

/-- Adapter for the C7 witness: empty pages, probe sees the next bar only
at `ts = 70000`. -/
def c7_fetch : Nat → Nat → Nat → List OHLCV := fun _ _ limit =>
  if limit = 1 then [⟨70000, 1, 1, 1, 1, 1⟩] else []

theorem repair_chunk_probe_semantics_witness :
    (repair_chunk_step c7_fetch ⟨[], []⟩ 60000 1000 0 60000 5).1 =
      { bars := [], km := [⟨0, 60000, "binance_no_data"⟩] } ∧
    (repair_chunk_step c7_fetch ⟨[], []⟩ 60000 1000 0 60000 5).2 = 60000 := by
  have h := repair_chunk_probe_semantics c7_fetch ⟨[], []⟩ 60000 1000 0 60000 5
    (by rfl) (by rfl)
  refine ⟨?_, h.1⟩
  have h2 := h.2.1 ⟨70000, 1, 1, 1, 1, 1⟩ [] rfl (by decide)
  rw [h2]
  rfl

/-- Adjacent pairs of a series scan: the SQL window
`LAG(ts_ms) OVER (ORDER BY ts_ms)` pairs each row with its predecessor. -/
def adjPairs (l : List Nat) : List (Nat × Nat) :=
  l.zip l.tail

/-- `SELECT ts_ms ... ORDER BY ts_ms DESC LIMIT 1`: the maximum of a list. -/
def listMax (l : List Nat) : Option Nat :=
  l.foldl (fun acc t =>
    match acc with
    | none => some t
    | some m => some (max m t)) none

/-- `sqlite_store.py::resolve_contiguous_window` for one series, the stored
`ts_ms` scan passed as a (sorted) list: find the bar that ends the *last*
gap inside `[start_ms, end_ms_excl)`, move the start there (ceil-aligned),
keep the end; with no gap, return the window unchanged. -/
def resolve_contiguous_window (series : List Nat)
    (tf_ms start_ms end_ms_excl : Nat) : Except String (Nat × Nat) :=
  let w := series.filter (fun t => decide (start_ms ≤ t) && decide (t < end_ms_excl))
  let gapEnds := ((adjPairs w).filter (fun p => decide (p.2 - p.1 ≠ tf_ms))).map Prod.snd
  match listMax gapEnds with
  | none => Except.ok (start_ms, end_ms_excl)
  | some ts =>
    let new_start := ceil_ts_to_tf ts tf_ms
    if end_ms_excl ≤ new_start then
      Except.error "Contiguous window empty after trimming for gaps"
    else Except.ok (new_start, end_ms_excl)

/-- The contiguous-window selector as the spec (§4.8) words it: build the
segments between the gaps of the window and return the longest segment of
at least `min_window_candles × tf_ms`, failing with the longest observed
segment length otherwise; with no gaps, return the window unchanged.
Stated for comparison against `resolve_contiguous_window`. -/
def specContiguousSelector (series : List Nat)
    (tf_ms start_ms end_ms_excl min_window_candles : Nat) :
    Except String (Nat × Nat) :=
  let w := series.filter (fun t => decide (start_ms ≤ t) && decide (t < end_ms_excl))
  let gaps := ((adjPairs w).filter (fun p => decide (p.2 - p.1 ≠ tf_ms))).map
    (fun p => (p.1 + tf_ms, p.2))
  if gaps.isEmpty then Except.ok (start_ms, end_ms_excl)
  else
    let starts := start_ms :: gaps.map Prod.snd
    let ends := gaps.map Prod.fst ++ [end_ms_excl]
    let segs := starts.zip ends
    let qualified := segs.filter
      (fun s => decide (min_window_candles * tf_ms ≤ s.2 - s.1))
    match qualified.foldl (fun acc s =>
        match acc with
        | none => some s
        | some best => if best.2 - best.1 < s.2 - s.1 then some s else some best)
        none with
    | some best => Except.ok best
    | none =>
      Except.error ("no contiguous window of requested size; longest segment ms = "
        ++ toString ((segs.map (fun s => s.2 - s.1)).foldl max 0))

/-- C3 counterexample: on bars `{0, 60000, 120000, 240000}` over
`[0, 300000)` at `1m`, the left segment `[0, 180000)` (3 candles) is the
longest, yet `resolve_contiguous_window` returns the trailing segment
`[240000, 300000)` (1 candle); the function takes no `min_window_candles`
parameter and performs no longest-segment selection. -/
theorem resolve_contiguous_window_counterexample :
    resolve_contiguous_window [0, 60000, 120000, 240000] 60000 0 300000 =
      Except.ok (240000, 300000) ∧
    specContiguousSelector [0, 60000, 120000, 240000] 60000 0 300000 1 =
      Except.ok (0, 180000) ∧
    ((240000, 300000) : Nat × Nat) ≠ (0, 180000) := by
  exact ⟨rfl, rfl, by decide⟩

theorem ceil_ts_to_tf_of_dvd {t tf_ms : Nat} (h : tf_ms ∣ t) :
    ceil_ts_to_tf t tf_ms = t := by
  unfold ceil_ts_to_tf
  rw [if_pos (Nat.mod_eq_zero_of_dvd h)]

theorem adjPairs_cons_cons (a b : Nat) (t : List Nat) :
    adjPairs (a :: b :: t) = (a, b) :: adjPairs (b :: t) := rfl

theorem adjPairs_mem : ∀ (l : List Nat) (p : Nat × Nat),
    p ∈ adjPairs l → p.1 ∈ l ∧ p.2 ∈ l := by
  intro l
  induction l with
  | nil => intro p hp; exact absurd hp (by simp [adjPairs])
  | cons a t ih =>
    intro p hp
    match t with
    | [] => exact absurd hp (by simp [adjPairs])
    | b :: t2 =>
      rw [adjPairs_cons_cons] at hp
      rcases List.mem_cons.mp hp with rfl | hp2
      · exact ⟨List.mem_cons_self _ _,
          List.mem_cons_of_mem _ (List.mem_cons_self _ _)⟩
      · obtain ⟨h1, h2⟩ := ih p hp2
        exact ⟨List.mem_cons_of_mem _ h1, List.mem_cons_of_mem _ h2⟩

theorem adjPairs_lt : ∀ (l : List Nat), List.Pairwise (fun a b => a < b) l →
    ∀ p ∈ adjPairs l, p.1 < p.2 := by
  intro l
  induction l with
  | nil => intro _ p hp; exact absurd hp (by simp [adjPairs])
  | cons a t ih =>
    intro hsort p hp
    match t with
    | [] => exact absurd hp (by simp [adjPairs])
    | b :: t2 =>
      rw [adjPairs_cons_cons] at hp
      rcases List.mem_cons.mp hp with rfl | hp2
      · exact (List.pairwise_cons.mp hsort).1 b (List.mem_cons_self _ _)
      · exact ih hsort.of_cons p hp2

theorem adjPairs_of_suffix : ∀ (pre l2 : List Nat) (p : Nat × Nat),
    p ∈ adjPairs l2 → p ∈ adjPairs (pre ++ l2) := by
  intro pre
  induction pre with
  | nil => intro l2 p hp; simpa using hp
  | cons x pre ih =>
    intro l2 p hp
    have h2 := ih l2 p hp
    rw [List.cons_append]
    match hq : pre ++ l2 with
    | [] => rw [hq] at h2; exact absurd h2 (by simp [adjPairs])
    | y :: t =>
      rw [hq] at h2
      rw [adjPairs_cons_cons]
      exact List.mem_cons_of_mem _ h2

theorem listMax_foldl_some : ∀ (t : List Nat) (m : Nat),
    t.foldl (fun acc x =>
      match acc with
      | none => some x
      | some v => some (max v x)) (some m) = some (t.foldl max m) := by
  intro t
  induction t with
  | nil => intro m; rfl
  | cons x t ih => intro m; simpa using ih (max m x)

theorem listMax_eq_none_iff (l : List Nat) : listMax l = none ↔ l = [] := by
  match l with
  | [] => simp [listMax]
  | a :: t =>
    unfold listMax
    rw [List.foldl_cons]
    show (t.foldl _ (some a)) = none ↔ _
    rw [listMax_foldl_some]
    simp

theorem listMax_some_spec (l : List Nat) (ts : Nat) (h : listMax l = some ts) :
    ts ∈ l ∧ ∀ x ∈ l, x ≤ ts := by
  match l with
  | [] => exact absurd h (by simp [listMax])
  | a :: t =>
    unfold listMax at h
    rw [List.foldl_cons] at h
    have h2 : (t.foldl (fun acc x =>
        match acc with
        | none => some x
        | some v => some (max v x)) (some a)) = some ts := h
    rw [listMax_foldl_some] at h2
    have hts : ts = t.foldl max a := (Option.some.inj h2).symm
    subst hts
    refine ⟨foldl_max_mem a t, ?_⟩
    intro x hx
    obtain ⟨h1, h2⟩ := le_foldl_max a t
    rcases List.mem_cons.mp hx with rfl | hx2
    · exact h1
    · exact h2 x hx2

theorem filter_ge_eq_dropWhile (q : Nat) : ∀ l : List Nat,
    List.Pairwise (fun a b => a < b) l →
    l.filter (fun t => decide (q ≤ t)) = l.dropWhile (fun t => decide (t < q)) := by
  intro l
  induction l with
  | nil => intro _; rfl
  | cons a t ih =>
    intro hsort
    by_cases h : q ≤ a
    · rw [List.filter_cons_of_pos (by simpa using h),
        List.dropWhile_cons_of_neg (by simpa using (by omega : ¬ a < q))]
      congr 1
      rw [List.filter_eq_self.mpr]
      intro x hx
      have hax : a < x := (List.pairwise_cons.mp hsort).1 x hx
      simpa using (by omega : q ≤ x)
    · rw [List.filter_cons_of_neg (by simpa using h),
        List.dropWhile_cons_of_pos (by simpa using (by omega : a < q))]
      exact ih hsort.of_cons

theorem mem_dropWhile_ge (q : Nat) (l : List Nat)
    (hsort : List.Pairwise (fun a b => a < b) l) :
    ∀ x ∈ l.dropWhile (fun t => decide (t < q)), q ≤ x := by
  intro x hx
  match hd : l.dropWhile (fun t => decide (t < q)) with
  | [] => rw [hd] at hx; exact absurd hx (List.not_mem_nil x)
  | b :: t2 =>
    rw [hd] at hx
    have hb : ¬ (b < q) := by
      have hhd := List.head?_dropWhile_not (fun t => decide (t < q)) l
      rw [hd] at hhd
      simp only [List.head?_cons] at hhd
      simpa using hhd
    have hsub : List.Sublist (b :: t2) l := hd ▸ List.dropWhile_sublist _
    have hsort2 := hsort.sublist hsub
    rcases List.mem_cons.mp hx with rfl | hx2
    · omega
    · have := (List.pairwise_cons.mp hsort2).1 x hx2
      omega

/-- C3 amended: for a sorted, grid-aligned series,
`resolve_contiguous_window` trims the window to the contiguous *tail*: on
success the end is unchanged, the start does not move backwards, and the
bars of the returned window contain no gap; when the window has no gaps at
all the input is returned unchanged.  (It does not select the longest
segment and takes no `min_window_candles` parameter: see the
counterexample.) -/
theorem resolve_contiguous_window_amended
    (series : List Nat) (tf_ms start_ms end_ms_excl : Nat)
    (hsort : List.Pairwise (fun a b => a < b) series)
    (halign : ∀ t ∈ series, tf_ms ∣ t) :
    (∀ s2 e2, resolve_contiguous_window series tf_ms start_ms end_ms_excl =
        Except.ok (s2, e2) →
      e2 = end_ms_excl ∧ start_ms ≤ s2 ∧
      ∀ p ∈ adjPairs (series.filter (fun t => decide (s2 ≤ t) && decide (t < e2))),
        p.2 = p.1 + tf_ms) ∧
    ((∀ p ∈ adjPairs (series.filter
        (fun t => decide (start_ms ≤ t) && decide (t < end_ms_excl))),
        p.2 - p.1 = tf_ms) →
      resolve_contiguous_window series tf_ms start_ms end_ms_excl =
        Except.ok (start_ms, end_ms_excl)) := by
  have hwsort : List.Pairwise (fun a b => a < b)
      (series.filter (fun t => decide (start_ms ≤ t) && decide (t < end_ms_excl))) :=
    hsort.filter _
  constructor
  · intro s2 e2 hok
    unfold resolve_contiguous_window at hok
    dsimp only at hok
    match hlm : listMax (((adjPairs (series.filter
        (fun t => decide (start_ms ≤ t) && decide (t < end_ms_excl)))).filter
        (fun p => decide (p.2 - p.1 ≠ tf_ms))).map Prod.snd) with
    | none =>
      rw [hlm] at hok
      dsimp only at hok
      have hpair := Except.ok.inj hok
      rw [Prod.ext_iff] at hpair
      obtain ⟨h1, h2⟩ := hpair
      dsimp only at h1 h2
      subst h1
      subst h2
      refine ⟨rfl, le_rfl, ?_⟩
      intro p hp
      have hmapnil := (listMax_eq_none_iff _).mp hlm
      have hbadnil : ((adjPairs (series.filter
          (fun t => decide (start_ms ≤ t) && decide (t < end_ms_excl)))).filter
          (fun p => decide (p.2 - p.1 ≠ tf_ms))) = [] :=
        List.map_eq_nil_iff.mp hmapnil
      have hgood : ¬ (p.2 - p.1 ≠ tf_ms) := by
        intro hc
        have : p ∈ ((adjPairs (series.filter
            (fun t => decide (start_ms ≤ t) && decide (t < end_ms_excl)))).filter
            (fun p => decide (p.2 - p.1 ≠ tf_ms))) := by
          rw [List.mem_filter]
          exact ⟨hp, by simpa using hc⟩
        rw [hbadnil] at this
        exact absurd this (List.not_mem_nil p)
      have hlt := adjPairs_lt _ hwsort p hp
      omega
    | some ts =>
      rw [hlm] at hok
      dsimp only at hok
      obtain ⟨htsmem, htsmax⟩ := listMax_some_spec _ ts hlm
      obtain ⟨p0, hp0bad, hp0ts⟩ := List.mem_map.mp htsmem
      have hp0w : p0 ∈ adjPairs (series.filter
          (fun t => decide (start_ms ≤ t) && decide (t < end_ms_excl))) :=
        List.mem_of_mem_filter hp0bad
      have hts_w : ts ∈ series.filter
          (fun t => decide (start_ms ≤ t) && decide (t < end_ms_excl)) :=
        hp0ts ▸ (adjPairs_mem _ p0 hp0w).2
      have hts_series : ts ∈ series := List.mem_of_mem_filter hts_w
      have hts_range : start_ms ≤ ts ∧ ts < end_ms_excl := by
        have := List.of_mem_filter hts_w
        rw [Bool.and_eq_true, decide_eq_true_iff, decide_eq_true_iff] at this
        exact this
      have hceil : ceil_ts_to_tf ts tf_ms = ts :=
        ceil_ts_to_tf_of_dvd (halign ts hts_series)
      rw [hceil] at hok
      by_cases hend : end_ms_excl ≤ ts
      · rw [if_pos hend] at hok
        exact absurd hok (by simp)
      · rw [if_neg hend] at hok
        have hpair := Except.ok.inj hok
        rw [Prod.ext_iff] at hpair
        obtain ⟨h1, h2⟩ := hpair
        dsimp only at h1 h2
        subst h1
        subst h2
        refine ⟨rfl, hts_range.1, ?_⟩
        have hff : series.filter (fun t => decide (ts ≤ t) && decide (t < end_ms_excl)) =
            (series.filter (fun t => decide (start_ms ≤ t) && decide (t < end_ms_excl))).filter
              (fun t => decide (ts ≤ t)) := by
          rw [List.filter_filter]
          apply List.filter_congr
          intro t _
          by_cases ha : ts ≤ t
          · have hst : start_ms ≤ t := le_trans hts_range.1 ha
            by_cases hb : t < end_ms_excl <;> simp [ha, hb, hst]
          · simp [ha]
        rw [hff, filter_ge_eq_dropWhile ts _ hwsort]
        intro p hp
        have hsuffix : ∃ pre, pre ++ ((series.filter
            (fun t => decide (start_ms ≤ t) && decide (t < end_ms_excl))).dropWhile
            (fun t => decide (t < ts))) =
            series.filter (fun t => decide (start_ms ≤ t) && decide (t < end_ms_excl)) :=
          List.dropWhile_suffix _
        obtain ⟨pre, hpre⟩ := hsuffix
        have hpw : p ∈ adjPairs (series.filter
            (fun t => decide (start_ms ≤ t) && decide (t < end_ms_excl))) := by
          rw [← hpre]
          exact adjPairs_of_suffix pre _ p hp
        have hp1ge : ts ≤ p.1 :=
          mem_dropWhile_ge ts _ hwsort p.1 (adjPairs_mem _ p hp).1
        have hgood : ¬ (p.2 - p.1 ≠ tf_ms) := by
          intro hc
          have hpbad : p ∈ ((adjPairs (series.filter
              (fun t => decide (start_ms ≤ t) && decide (t < end_ms_excl)))).filter
              (fun p => decide (p.2 - p.1 ≠ tf_ms))) := by
            rw [List.mem_filter]
            exact ⟨hpw, by simpa using hc⟩
          have hp2le : p.2 ≤ ts := htsmax p.2 (List.mem_map_of_mem _ hpbad)
          have hplt := adjPairs_lt _ hwsort p hpw
          omega
        have hplt := adjPairs_lt _ hwsort p hpw
        omega
  · intro hng
    unfold resolve_contiguous_window
    dsimp only
    have hbadnil : ((adjPairs (series.filter
        (fun t => decide (start_ms ≤ t) && decide (t < end_ms_excl)))).filter
        (fun p => decide (p.2 - p.1 ≠ tf_ms))) = [] := by
      rw [List.filter_eq_nil_iff]
      intro p hp
      have := hng p hp
      simp [this]
    rw [hbadnil]
    rfl

theorem resolve_contiguous_window_amended_witness :
    resolve_contiguous_window [0, 60000, 120000] 60000 0 180000 =
      Except.ok (0, 180000) :=
  (resolve_contiguous_window_amended [0, 60000, 120000] 60000 0 180000
    (by decide) (by decide)).2 (by decide)
